import Mathlib

/-!
# Verification of the streaming tool-calling agent loop

Shallow embedding of the core of this repository:

* `codex_cli/client.py` — class `CodexClient`, method `send_message`: the
  streaming delta accumulator (lines 109-166), the tool-call finalization
  (lines 169-170), the tool-execution / conversation-append phase
  (lines 172-228), the completion branch (lines 229-239), the generic
  exception handler (lines 241-244) and the iteration-limit warning
  (lines 246-247).
* `codex_cli/tools.py` — `ToolRegistry.execute_tool` (lines 154-164).
* `codex_simple.py` — the single-file variant's `execute_tool`
  (lines 272-279).

External collaborators (the OpenRouter transport, `json.loads`, and the
concrete capability implementations, which all perform I/O) are modelled as
parameters: the transport as a function from the iteration number to a
`ModelResp` (the finite delta-event stream of that model call, plus an
optional exception raised while obtaining or consuming it), `json.loads` as
a function `String → Except String Args`, and each capability as a function
`Args → Except String String` where `Except.error` models a raised
exception.  Python truthiness on the optional string fields of a delta
(`None` or `""` both skip the guard) is modelled by plain `String` fields
where `""` means absent, which is behaviour-identical in every use site of
the source.
-/

/-- Stand-in for a parsed JSON object: the Python dict produced by a
successful `json.loads` of a tool call's accumulated arguments string.  The
agent loop passes it to capabilities opaquely, so a string-keyed
association list suffices. -/
abbrev Args := List (String × String)

/-- External collaborator `json.loads`: `Except.error m` models
`json.JSONDecodeError` raised with message `m`. -/
abbrev JsonLoads := String → Except String Args

/-- External collaborator: one workspace capability (for example
`read_file`).  `Except.error m` models an exception raised inside the
capability with message `m`; `Except.ok r` a normal textual result. -/
abbrev ToolImpl := Args → Except String String

/-- The capability registry `self.tools`: tool name to implementation. -/
abbrev Registry := List (String × ToolImpl)

/-- Python `name in tools` / `tools[name]` on the registry dict. -/
def lookupTool (name : String) : Registry → Option ToolImpl
  | [] => none
  | (k, f) :: rest => if k = name then some f else lookupTool name rest

/-- `ToolRegistry.execute_tool` (codex_cli/tools.py lines 154-164):
unknown name yields the fixed not-found string; the capability call is
wrapped in a catch-all `except Exception` that converts any raised
exception into an error string naming the tool.  The return type `String`
(no error channel) reflects that the Python function cannot raise. -/
def execute_tool (rg : Registry) (name : String) (arguments : Args) : String :=
  match lookupTool name rg with
  | none => "Error: Tool \x27" ++ name ++ "\x27 not found"
  | some tool =>
    match tool arguments with
    | .ok result => result
    | .error e => "Error executing tool \x27" ++ name ++ "\x27: " ++ e

namespace CodexSimple

/-- `execute_tool` of codex_simple.py (lines 272-279): same structure, with
the error prefix `Error executing '<name>': `. -/
def execute_tool (tools : Registry) (name : String) (args : Args) : String :=
  match lookupTool name tools with
  | none => "Error: Tool \x27" ++ name ++ "\x27 not found"
  | some f =>
    match f args with
    | .ok result => result
    | .error e => "Error executing \x27" ++ name ++ "\x27: " ++ e

end CodexSimple

/-- One entry of `delta.tool_calls` in a streamed chunk (`tc_delta`):
per-turn `index`, and the optional `id`, `function.name` and
`function.arguments` fragments (`""` = absent). -/
structure ToolCallDelta where
  index : Nat
  id : String
  name : String
  arguments : String
  deriving DecidableEq, Repr

/-- One delta event (`chunk.choices[0].delta`): optional reasoning text,
optional content text, and a (possibly empty) list of tool-call
fragments.  A chunk with no choices contributes nothing and is omitted. -/
structure Delta where
  reasoning : String
  content : String
  tool_calls : List ToolCallDelta
  deriving DecidableEq, Repr

/-- An entry of `tool_calls_dict` / `tool_calls_list`: accumulated `id`,
`function.name` and `function.arguments` (the constant `"type":
"function"` field is omitted). -/
structure ToolCall where
  id : String
  name : String
  arguments : String
  deriving DecidableEq, Repr

/-- One model call's event stream as delivered by the transport: the delta
events successfully consumed, and `failure = some m` when obtaining or
consuming the stream raised an exception with message `m` after those
deltas (so the `async for` body ran for `deltas` and then the exception
propagated to the `except` handler). -/
structure ModelResp where
  deltas : List Delta
  failure : Option String
  deriving Repr

/-- The `Message` class of codex_cli/client.py (lines 10-29): one turn of
`conversation_history`.  `tool_calls` defaults to `[]`, `name` to
`None`. -/
structure Message where
  role : String
  content : String
  tool_calls : List ToolCall
  name : Option String
  deriving DecidableEq, Repr

/-- An entry of the `messages` list sent to the API: the dict shape.
`Message.to_dict` never sets `tool_call_id`; the dict literals appended at
lines 220-225 do. -/
structure MsgDict where
  role : String
  content : String
  tool_calls : List ToolCall
  name : Option String
  tool_call_id : Option String
  deriving DecidableEq, Repr

/-- `Message.to_dict` (lines 19-29): role and content always, `tool_calls`
when non-empty (empty list models the absent key), `name` when set. -/
def Message.to_dict (m : Message) : MsgDict :=
  ⟨m.role, m.content, m.tool_calls, m.name, none⟩

/-- The events `send_message` yields to its caller, one constructor per
`type` value of the yielded info dict ("thinking_start", "reasoning",
"thinking_end", "content", "tool_call", "tool_result", "complete",
"error", "warning"). -/
inductive UIEvent where
  | thinking_start
  | reasoning_chunk (text : String)
  | thinking_end
  | content_chunk (text : String)
  | tool_call (name : String) (arguments : Args) (id : String)
  | tool_result (name : String) (result : String) (id : String)
  | complete
  | error (message : String)
  | warning
  deriving DecidableEq, Repr

/-- Python `idx in tool_calls_dict` / `tool_calls_dict[idx]` on the
insertion-ordered dict, modelled as an association list. -/
def lookupN (i : Nat) : List (Nat × ToolCall) → Option ToolCall
  | [] => none
  | (k, v) :: rest => if k = i then some v else lookupN i rest

/-- In-place update of the dict entry at key `i` (mutation of
`tool_calls_dict[idx]`). -/
def updateKey (i : Nat) (g : ToolCall → ToolCall) (acc : List (Nat × ToolCall)) :
    List (Nat × ToolCall) :=
  acc.map fun p => if p.1 = i then (p.1, g p.2) else p

/-- The three conditional updates applied to the entry for `tc_delta.index`
(lines 155-162): overwrite `id` when present, overwrite `name` when
present, append `arguments` when present. -/
def tcUpd (a : ToolCall) (f : ToolCallDelta) : ToolCall :=
  let a1 := if f.id ≠ "" then { a with id := f.id } else a
  let a2 := if f.name ≠ "" then { a1 with name := f.name } else a1
  if f.arguments ≠ "" then { a2 with arguments := a2.arguments ++ f.arguments } else a2

/-- Processing one `tc_delta` (lines 142-162): create the entry on first
sight of the index (with `id or ""`, `name or ""`, empty arguments), then
apply the three conditional updates. -/
def tcStep (acc : List (Nat × ToolCall)) (f : ToolCallDelta) : List (Nat × ToolCall) :=
  let acc1 := if (lookupN f.index acc).isSome then acc
              else acc ++ [(f.index, ⟨f.id, f.name, ""⟩)]
  updateKey f.index (fun a => tcUpd a f) acc1

/-- The Delta Accumulator's per-model-call state: the events yielded so
far during streaming, `accumulated_content`, `accumulated_reasoning`,
`tool_calls_dict`, and the `reasoning_active` flag. -/
structure StreamState where
  events : List UIEvent
  content : String
  reasoning : String
  tcs : List (Nat × ToolCall)
  reasoningActive : Bool
  deriving DecidableEq, Repr

/-- Lines 122-129: handle a reasoning fragment (emit `thinking_start` on
entering the reasoning phase, append the text, emit the fragment). -/
def stepReason (st : StreamState) (d : Delta) : StreamState :=
  if d.reasoning ≠ "" then
    let st1 := if st.reasoningActive = false then
        { st with reasoningActive := true, events := st.events ++ [.thinking_start] }
      else st
    { st1 with reasoning := st1.reasoning ++ d.reasoning,
               events := st1.events ++ [.reasoning_chunk d.reasoning] }
  else st

/-- Lines 131-138: handle a content fragment (emit `thinking_end` on
leaving the reasoning phase, append the text, emit the fragment). -/
def stepContent (st : StreamState) (d : Delta) : StreamState :=
  if d.content ≠ "" then
    let st1 := if st.reasoningActive then
        { st with reasoningActive := false, events := st.events ++ [.thinking_end] }
      else st
    { st1 with content := st1.content ++ d.content,
               events := st1.events ++ [.content_chunk d.content] }
  else st

/-- Lines 140-162: fold the chunk's tool-call fragments into
`tool_calls_dict`. -/
def stepTools (st : StreamState) (d : Delta) : StreamState :=
  { st with tcs := d.tool_calls.foldl tcStep st.tcs }

/-- One iteration of the `async for chunk in stream` body (lines 116-162):
reasoning, then content, then tool-call fragments — the order fixed by the
source. -/
def streamStep (st : StreamState) (d : Delta) : StreamState :=
  stepTools (stepContent (stepReason st d) d) d

/-- The accumulator state at the start of a model call
(lines 109-114). -/
def initStream : StreamState := ⟨[], "", "", [], false⟩

/-- The Delta Accumulator: consume one model call's delta events. -/
def consumeStream (es : List Delta) : StreamState := es.foldl streamStep initStream

/-- `sorted(tool_calls_dict.keys())` (line 170). -/
def sorted_keys (acc : List (Nat × ToolCall)) : List Nat :=
  List.insertionSort (· ≤ ·) (acc.map Prod.fst)

/-- The finalized tool calls with their indices:
`[(i, tool_calls_dict[i]) for i in sorted(tool_calls_dict.keys())]`.
Every key of the dict is present, so the lookup never fails. -/
def finalizePairs (acc : List (Nat × ToolCall)) : List (Nat × ToolCall) :=
  (sorted_keys acc).filterMap fun i => (lookupN i acc).map fun v => (i, v)

/-- `tool_calls_list` (line 170): the finalized calls, index-ascending. -/
def tool_calls_list (acc : List (Nat × ToolCall)) : List ToolCall :=
  (finalizePairs acc).map Prod.snd

/-- The event sequence one successful model call emits during streaming,
including the closing `thinking_end` of lines 164-166. -/
def streamEvents (es : List Delta) : List UIEvent :=
  (consumeStream es).events ++
    (if (consumeStream es).reasoningActive then [UIEvent.thinking_end] else [])

/-- `max_iterations = 10` (line 89). -/
def max_iterations : Nat := 10

/-- The mutable state of one `send_message` run: `conversation_history`,
the `messages` list, the events yielded so far, and (ghost
instrumentation, read by nothing in the loop) the request message list of
each model call issued so far. -/
structure LoopState where
  conv : List Message
  msgs : List MsgDict
  events : List UIEvent
  calls : List (List MsgDict)
  deriving Repr

/-- How one `send_message` run ended: `break` after yielding "complete",
`break` after yielding an error, or the `while` condition turning
false. -/
inductive LoopStatus where
  | completed
  | errored
  | exhausted
  deriving DecidableEq, Repr

/-- The observable outcome of one `send_message` run: final conversation,
final `messages` list, all yielded events, the request list of every model
call issued, the final value of `iteration`, and how the loop ended. -/
structure LoopResult where
  conv : List Message
  msgs : List MsgDict
  events : List UIEvent
  calls : List (List MsgDict)
  iteration : Nat
  status : LoopStatus
  deriving Repr

/-- The `for tool_call in tool_calls_list` body (lines 182-225): parse the
arguments (a parse failure propagates as an exception, returned as
`some message`), yield `tool_call`, execute, yield `tool_result`, append
the tool turn to the conversation, then append the assistant dict and the
tool dict to `messages` — both appends sit inside the per-call loop in the
source. -/
def execCalls (jp : JsonLoads) (rg : Registry) (tcl : List ToolCall) (accContent : String) :
    List ToolCall → LoopState → LoopState × Option String
  | [], st => (st, none)
  | tc :: rest, st =>
    match jp tc.arguments with
    | .error e => (st, some e)
    | .ok args =>
      let result := execute_tool rg tc.name args
      let st1 : LoopState :=
        { st with
          events := st.events ++
            [.tool_call tc.name args tc.id, .tool_result tc.name result tc.id],
          conv := st.conv ++ [⟨"tool", result, [], some tc.name⟩],
          msgs := st.msgs ++
            [⟨"assistant", accContent, tcl, none, none⟩,
             ⟨"tool", result, [], some tc.name, some tc.id⟩] }
      execCalls jp rg tcl accContent rest st1

/-- The `while iteration < max_iterations` loop (lines 92-244).  The fuel
argument makes the recursion structural; `send_message` enters with fuel
`max_iterations` and `iteration = 0`, and since `iteration` increases by
one per unfolding, the fuel-exhausted case coincides with the
`while`-condition exit (both fire exactly when `iteration` reaches 10).
Each unfolding: record and issue the model call with the current
`messages` (the ghost `calls` append), consume the stream; an exception
while obtaining or consuming the stream is caught by the `except` at line
241 (yield one error event, `break` — nothing was appended to the
conversation and the `thinking_end` of lines 164-166 is skipped);
otherwise the streaming events including a closing `thinking_end` were
yielded (`streamEvents`), the tool calls are finalized, and either the
assistant turn is appended and the calls executed (`continue`, or the same
`except` handler if `json.loads` raised inside `execCalls`), or the final
answer is appended when non-empty, "complete" is yielded and the loop
`break`s. -/
def sendLoopAux (jp : JsonLoads) (rg : Registry) (resps : Nat → ModelResp) :
    Nat → Nat → LoopState → LoopResult
  | 0, iteration, st => ⟨st.conv, st.msgs, st.events, st.calls, iteration, .exhausted⟩
  | fuel + 1, iteration, st =>
    if iteration < max_iterations then
      match (resps (iteration + 1)).failure with
      | some e =>
        ⟨st.conv, st.msgs,
         st.events ++ (consumeStream (resps (iteration + 1)).deltas).events ++
           [.error ("Error communicating with API: " ++ e)],
         st.calls ++ [st.msgs], iteration + 1, .errored⟩
      | none =>
        if tool_calls_list (consumeStream (resps (iteration + 1)).deltas).tcs ≠ [] then
          match execCalls jp rg
              (tool_calls_list (consumeStream (resps (iteration + 1)).deltas).tcs)
              (consumeStream (resps (iteration + 1)).deltas).content
              (tool_calls_list (consumeStream (resps (iteration + 1)).deltas).tcs)
              (⟨st.conv ++
                  [⟨"assistant", (consumeStream (resps (iteration + 1)).deltas).content,
                    tool_calls_list (consumeStream (resps (iteration + 1)).deltas).tcs, none⟩],
                st.msgs, st.events ++ streamEvents (resps (iteration + 1)).deltas,
                st.calls ++ [st.msgs]⟩ : LoopState) with
          | (st3, none) => sendLoopAux jp rg resps fuel (iteration + 1) st3
          | (st3, some e) =>
            ⟨st3.conv, st3.msgs,
             st3.events ++ [.error ("Error communicating with API: " ++ e)],
             st3.calls, iteration + 1, .errored⟩
        else
          ⟨(if (consumeStream (resps (iteration + 1)).deltas).content ≠ "" then
              st.conv ++
                [⟨"assistant", (consumeStream (resps (iteration + 1)).deltas).content, [], none⟩]
            else st.conv),
           st.msgs, st.events ++ streamEvents (resps (iteration + 1)).deltas ++ [.complete],
           st.calls ++ [st.msgs], iteration + 1, .completed⟩
    else ⟨st.conv, st.msgs, st.events, st.calls, iteration, .exhausted⟩

/-- The system prompt of codex_cli/client.py (lines 48-70). -/
def system_prompt : String :=
  "You are Codex, an advanced AI coding assistant with access to powerful tools for file operations, code execution, and workspace management. Default language is Python.\n\nYou can:\n- Read and write files in the workspace\n- Execute shell commands\n- Search for files\n- List directories\n- Analyze and generate code\n- Help with debugging and problem-solving\n\nWhen the user asks you to perform tasks, use the appropriate tools to accomplish them. Always be helpful, precise, and explain what you\x27re doing.\n\nWhen writing code:\n- Write clean, well-documented code\n- Follow best practices\n- Include error handling\n- Add helpful comments\n\nWhen using tools:\n- Be explicit about what you\x27re doing\n- Explain the results\n- Handle errors gracefully\n"

/-- The state `send_message` enters the loop with (lines 80-85): the
conversation extended by the new user turn (`userTurn`), and `messages`
built as the fixed system turn followed by the conversation turns via
`to_dict`. -/
def userTurn (user_message : String) : Message := ⟨"user", user_message, [], none⟩

/-- The fixed leading system turn of every request (line 84). -/
def systemMsg : MsgDict := ⟨"system", system_prompt, [], none, none⟩

/-- See the doc comment of `sendMessage`. -/
def initLoopState (history : List Message) (user_message : String) : LoopState :=
  ⟨history ++ [userTurn user_message],
   systemMsg :: (history ++ [userTurn user_message]).map Message.to_dict,
   [], []⟩

/-- `send_message` (lines 72-247): append the user turn, build `messages`,
run the agent loop, and yield the iteration-limit warning exactly when the
final value of `iteration` reached `max_iterations` (lines 246-247 — this
check runs on every exit path, including `break`). -/
def sendMessage (jp : JsonLoads) (rg : Registry) (resps : Nat → ModelResp)
    (history : List Message) (user_message : String) : LoopResult :=
  if max_iterations ≤
      (sendLoopAux jp rg resps max_iterations 0 (initLoopState history user_message)).iteration
  then
    { sendLoopAux jp rg resps max_iterations 0 (initLoopState history user_message) with
      events :=
        (sendLoopAux jp rg resps max_iterations 0 (initLoopState history user_message)).events
          ++ [.warning] }
  else sendLoopAux jp rg resps max_iterations 0 (initLoopState history user_message)

/-! ## Specification-side functions

These express the properties the claims talk about (ordered concatenation,
last non-empty value, first-seen key set, conversation well-formedness,
phase bracketing).  They are not part of the embedding of the source. -/

/-- Ordered concatenation of a list of strings. -/
def strConcat : List String → String
  | [] => ""
  | s :: rest => s ++ strConcat rest

/-- The last non-empty string of a list continuing from seed `a`
(`a` if none). -/
def lastNEFrom (a : String) (l : List String) : String :=
  l.foldl (fun acc s => if s = "" then acc else s) a

/-- The last non-empty string of a list (`""` if none). -/
def lastNE (l : List String) : String := lastNEFrom "" l

/-- The fragments of a stream that carry index `i`, in arrival order. -/
def fragsAt (i : Nat) (fs : List ToolCallDelta) : List ToolCallDelta :=
  fs.filter fun f => f.index = i

/-- The tool call the spec predicts for index `i`: last non-empty id, last
non-empty name, concatenation of all argument fragments in arrival
order. -/
def specEntry (i : Nat) (fs : List ToolCallDelta) : ToolCall :=
  ⟨lastNE ((fragsAt i fs).map (·.id)),
   lastNE ((fragsAt i fs).map (·.name)),
   strConcat ((fragsAt i fs).map (·.arguments))⟩

/-- The distinct indices of a fragment stream in first-seen order,
continuing from the already-seen list `ks`. -/
def firstSeen (ks : List Nat) (fs : List ToolCallDelta) : List Nat :=
  fs.foldl (fun ks f => if f.index ∈ ks then ks else ks ++ [f.index]) ks

/-- The net effect of one fragment on the (optional) dict entry of its own
index: create on first sight, then apply the three conditional updates. -/
def applyFrag (o : Option ToolCall) (f : ToolCallDelta) : Option ToolCall :=
  some (tcUpd (o.getD ⟨f.id, f.name, ""⟩) f)

/-- Scanner for conversation well-formedness.  The state is the list of
tool calls of an open assistant turn still awaiting their tool turns
(`none` = already malformed).  A tool turn is legal only while calls are
pending, must carry the pending call's non-empty name, and consumes it; an
assistant turn listing calls opens a new pending block. -/
def wfStep : Option (List ToolCall) → Message → Option (List ToolCall)
  | none, _ => none
  | some (c :: cs), t =>
    if t.role = "tool" ∧ t.name = some c.name ∧ c.name ≠ "" then some cs else none
  | some [], t =>
    if t.role = "tool" then none
    else if t.role = "assistant" ∧ t.tool_calls ≠ [] then some t.tool_calls
    else some []

/-- A conversation is well-formed when every tool turn has a non-empty
name and sits in the block of tool turns directly following the assistant
turn listing it (one per listed call, in list order), and every assistant
turn listing calls has its complete block. -/
def wfConv (l : List Message) : Prop := l.foldl wfStep (some []) = some []

instance (l : List Message) : Decidable (wfConv l) := by
  unfold wfConv; infer_instance

/-- Phase-bracket check: scanning with `b` = "inside a thinking phase",
`thinking_start` requires and flips closed→open, `thinking_end` open→closed,
reasoning fragments may occur only inside a phase, content fragments only
outside, and the scan must end closed. -/
def phaseOkFrom : Bool → List UIEvent → Bool
  | b, [] => !b
  | b, UIEvent.thinking_start :: rest => !b && phaseOkFrom true rest
  | b, UIEvent.thinking_end :: rest => b && phaseOkFrom false rest
  | b, UIEvent.reasoning_chunk _ :: rest => b && phaseOkFrom b rest
  | b, UIEvent.content_chunk _ :: rest => !b && phaseOkFrom b rest
  | b, _ :: rest => phaseOkFrom b rest

/-- Invariant tying the events emitted so far to the `reasoning_active`
flag: scanning them from outside a phase lands exactly in the state the
flag records. -/
def phaseInvER (evs : List UIEvent) (ra : Bool) : Prop :=
  ∀ rest, phaseOkFrom false (evs ++ rest) = phaseOkFrom ra rest

/-- `phaseInvER` read off a stream state. -/
def phaseInv (st : StreamState) : Prop := phaseInvER st.events st.reasoningActive

/-- When the reasoning phase is open, a `thinking_start` has been
emitted. -/
def raQ (st : StreamState) : Prop :=
  st.reasoningActive = true → UIEvent.thinking_start ∈ st.events

/-- Events produced while streaming (phase markers and fragments). -/
def isPhase : UIEvent → Bool
  | .thinking_start | .reasoning_chunk _ | .thinking_end | .content_chunk _ => true
  | _ => false

def isWarning : UIEvent → Bool
  | .warning => true
  | _ => false

def isError : UIEvent → Bool
  | .error _ => true
  | _ => false

def isStart : UIEvent → Bool
  | .thinking_start => true
  | _ => false

/-- `Except.ok`-ness of a parse result, as a boolean. -/
def exOk : Except String Args → Bool
  | .ok _ => true
  | .error _ => false

/-- The tool calls a model response finalizes to. -/
def respToolCalls (r : ModelResp) : List ToolCall :=
  tool_calls_list (consumeStream r.deltas).tcs

/-- The accumulated arguments of this call parse as JSON. -/
def parseOk (jp : JsonLoads) (tc : ToolCall) : Bool := exOk (jp tc.arguments)

/-- The call has a non-empty name and parseable arguments. -/
def goodCall (jp : JsonLoads) (tc : ToolCall) : Bool :=
  (!(tc.name == "")) && parseOk jp tc

/-- Every call finalized from the response is good. -/
def goodResp (jp : JsonLoads) (r : ModelResp) : Bool :=
  (respToolCalls r).all (goodCall jp)

/-- The response streams successfully, carries at least one tool call, and
all its calls' arguments parse — so its iteration surely `continue`s. -/
def toolish (jp : JsonLoads) (r : ModelResp) : Bool :=
  r.failure.isNone && !(respToolCalls r).isEmpty && (respToolCalls r).all (parseOk jp)

/-- The parsed arguments of a call (`[]` when the parse failed; used only
under a `parseOk` hypothesis). -/
def okValD : Except String Args → Args
  | .ok a => a
  | .error _ => []

/-- The tool-result text the loop obtains for a call. -/
def toolResultOf (jp : JsonLoads) (rg : Registry) (tc : ToolCall) : String :=
  execute_tool rg tc.name (okValD (jp tc.arguments))

/-- The tool turn the loop appends for a call. -/
def convToolTurn (jp : JsonLoads) (rg : Registry) (tc : ToolCall) : Message :=
  ⟨"tool", toolResultOf jp rg tc, [], some tc.name⟩

/-! ## Concrete instances used by witnesses and counterexamples -/

/-- A `json.loads` model agreeing with Python on the strings exercised
below: `"{}"` parses to the empty object, anything else raises
`Expecting value: line 1 column 1 (char 0)` (the message CPython produces
for the non-JSON strings used here). -/
def jpEx : JsonLoads := fun s =>
  if s = "\x7b\x7d" then .ok []
  else .error "Expecting value: line 1 column 1 (char 0)"

/-- A two-tool registry whose capabilities succeed. -/
def rgEx : Registry :=
  [("read_file", fun _ => .ok "file contents"), ("write_file", fun _ => .ok "ok")]

/-- A model that always requests one `read_file` call whose accumulated
arguments are not valid JSON. -/
def respsBadJson : Nat → ModelResp :=
  fun _ => ⟨[⟨"", "", [⟨0, "tc1", "read_file", "notjson"⟩]⟩], none⟩

/-- A model that always requests one well-formed `read_file` call. -/
def respsTool : Nat → ModelResp :=
  fun _ => ⟨[⟨"", "", [⟨0, "tc1", "read_file", "\x7b\x7d"⟩]⟩], none⟩

/-- A model whose first turn requests two well-formed tool calls in one
assistant turn, then answers. -/
def respsTwoCalls : Nat → ModelResp := fun it =>
  if it = 1 then
    ⟨[⟨"", "", [⟨0, "tc1", "read_file", "\x7b\x7d"⟩, ⟨1, "tc2", "write_file", "\x7b\x7d"⟩]⟩], none⟩
  else ⟨[⟨"", "done", []⟩], none⟩

/-- A model that requests one tool call on each of the first nine
iterations and answers on the tenth. -/
def respsNineThenDone : Nat → ModelResp := fun it =>
  if it ≤ 9 then ⟨[⟨"", "", [⟨0, "tc1", "read_file", "\x7b\x7d"⟩]⟩], none⟩
  else ⟨[⟨"", "done", []⟩], none⟩

/-- A transport that fails on every call. -/
def respsFail : Nat → ModelResp := fun _ => ⟨[], some "Connection error."⟩

/-- A stream interleaving reasoning after content: reasoning "a", then
content "b", then reasoning "c". -/
def exC7 : List Delta := [⟨"a", "", []⟩, ⟨"", "b", []⟩, ⟨"c", "", []⟩]

/-- Tool-call fragments arriving out of index order with split
arguments. -/
def exC5 : List Delta :=
  [⟨"", "", [⟨1, "tc2", "write_file", "\x7b"⟩]⟩,
   ⟨"", "", [⟨0, "tc1", "read_file", "\x7b\x7d"⟩, ⟨1, "", "", "\x7d"⟩]⟩]

/-! ## Properties of the Delta Accumulator -/

theorem stepReason_content (st : StreamState) (d : Delta) :
    (stepReason st d).content = st.content := by
  unfold stepReason
  split <;> (try split) <;> rfl

theorem stepReason_tcs (st : StreamState) (d : Delta) :
    (stepReason st d).tcs = st.tcs := by
  unfold stepReason
  split <;> (try split) <;> rfl

theorem stepReason_reasoning (st : StreamState) (d : Delta) :
    (stepReason st d).reasoning = st.reasoning ++ d.reasoning := by
  unfold stepReason
  split
  case isTrue h => split <;> rfl
  case isFalse h =>
    rw [not_not] at h
    rw [h, String.append_empty]

theorem stepContent_reasoning (st : StreamState) (d : Delta) :
    (stepContent st d).reasoning = st.reasoning := by
  unfold stepContent
  split <;> (try split) <;> rfl

theorem stepContent_tcs (st : StreamState) (d : Delta) :
    (stepContent st d).tcs = st.tcs := by
  unfold stepContent
  split <;> (try split) <;> rfl

theorem stepContent_content (st : StreamState) (d : Delta) :
    (stepContent st d).content = st.content ++ d.content := by
  unfold stepContent
  split
  case isTrue h => split <;> rfl
  case isFalse h =>
    rw [not_not] at h
    rw [h, String.append_empty]

theorem stepTools_content (st : StreamState) (d : Delta) :
    (stepTools st d).content = st.content := rfl

theorem stepTools_reasoning (st : StreamState) (d : Delta) :
    (stepTools st d).reasoning = st.reasoning := rfl

theorem stepTools_tcs (st : StreamState) (d : Delta) :
    (stepTools st d).tcs = d.tool_calls.foldl tcStep st.tcs := rfl

theorem streamStep_content (st : StreamState) (d : Delta) :
    (streamStep st d).content = st.content ++ d.content := by
  unfold streamStep
  rw [stepTools_content, stepContent_content, stepReason_content]

theorem streamStep_reasoning (st : StreamState) (d : Delta) :
    (streamStep st d).reasoning = st.reasoning ++ d.reasoning := by
  unfold streamStep
  rw [stepTools_reasoning, stepContent_reasoning, stepReason_reasoning]

theorem streamStep_tcs (st : StreamState) (d : Delta) :
    (streamStep st d).tcs = d.tool_calls.foldl tcStep st.tcs := by
  unfold streamStep
  rw [stepTools_tcs, stepContent_tcs, stepReason_tcs]

theorem foldl_streamStep_content :
    ∀ (es : List Delta) (st : StreamState),
      (es.foldl streamStep st).content = st.content ++ strConcat (es.map (·.content))
  | [], st => by simp [strConcat]
  | d :: es, st => by
    rw [List.foldl_cons, foldl_streamStep_content es, streamStep_content]
    simp [strConcat, String.append_assoc]

theorem foldl_streamStep_reasoning :
    ∀ (es : List Delta) (st : StreamState),
      (es.foldl streamStep st).reasoning = st.reasoning ++ strConcat (es.map (·.reasoning))
  | [], st => by simp [strConcat]
  | d :: es, st => by
    rw [List.foldl_cons, foldl_streamStep_reasoning es, streamStep_reasoning]
    simp [strConcat, String.append_assoc]

theorem foldl_streamStep_tcs :
    ∀ (es : List Delta) (st : StreamState),
      (es.foldl streamStep st).tcs = (es.flatMap (·.tool_calls)).foldl tcStep st.tcs
  | [], st => by simp
  | d :: es, st => by
    rw [List.foldl_cons, foldl_streamStep_tcs es, streamStep_tcs]
    simp [List.foldl_append]

theorem consumeStream_content (es : List Delta) :
    (consumeStream es).content = strConcat (es.map (·.content)) := by
  unfold consumeStream
  rw [foldl_streamStep_content]
  exact String.empty_append _

theorem consumeStream_reasoning (es : List Delta) :
    (consumeStream es).reasoning = strConcat (es.map (·.reasoning)) := by
  unfold consumeStream
  rw [foldl_streamStep_reasoning]
  exact String.empty_append _

theorem consumeStream_tcs (es : List Delta) :
    (consumeStream es).tcs = (es.flatMap (·.tool_calls)).foldl tcStep [] := by
  unfold consumeStream
  rw [foldl_streamStep_tcs]
  rfl

/-- Claim C6: for every finite delta-event sequence, the accumulated
turn's `content` equals the ordered concatenation of all content
fragments and its `reasoning` equals the ordered concatenation of all
reasoning fragments, fragment order preserved exactly and no fragment
dropped (empty fragments contribute the empty string). -/
theorem c6_accumulator_concat (es : List Delta) :
    (consumeStream es).content = strConcat (es.map (·.content)) ∧
    (consumeStream es).reasoning = strConcat (es.map (·.reasoning)) :=
  ⟨consumeStream_content es, consumeStream_reasoning es⟩

/-- Claim C10: the Delta Accumulator is deterministic — two runs over the
same finite delta-event sequence produce identical accumulated content,
identical accumulated reasoning, and identical ordered tool-call lists.
In the embedding the accumulator's state is explicit and created afresh
per run (`initStream`), so its output is a function of the event sequence
alone, with no hidden carried-over state. -/
theorem c10_accumulator_deterministic (es1 es2 : List Delta) (h : es1 = es2) :
    (consumeStream es1).content = (consumeStream es2).content ∧
    (consumeStream es1).reasoning = (consumeStream es2).reasoning ∧
    tool_calls_list (consumeStream es1).tcs = tool_calls_list (consumeStream es2).tcs := by
  subst h
  exact ⟨rfl, rfl, rfl⟩

/-- Witness for C10 at a concrete event sequence. -/
theorem c10_witness :
    (consumeStream exC5).content = (consumeStream exC5).content ∧
    (consumeStream exC5).reasoning = (consumeStream exC5).reasoning ∧
    tool_calls_list (consumeStream exC5).tcs = tool_calls_list (consumeStream exC5).tcs :=
  c10_accumulator_deterministic exC5 exC5 rfl

/-! ## Phase bracketing of the emitted event stream (C7) -/

theorem phaseInvER_extend {evs : List UIEvent} {ra : Bool} (h : phaseInvER evs ra)
    (t : List UIEvent) (b : Bool)
    (ht : ∀ rest, phaseOkFrom ra (t ++ rest) = phaseOkFrom b rest) :
    phaseInvER (evs ++ t) b := by
  intro rest
  rw [List.append_assoc, h (t ++ rest), ht rest]

theorem phaseInv_stepReason {st : StreamState} (d : Delta) (h : phaseInv st) :
    phaseInv (stepReason st d) := by
  unfold stepReason
  split
  case isFalse => exact h
  case isTrue hr =>
    split
    case isTrue ha =>
      show phaseInvER ((st.events ++ [UIEvent.thinking_start]) ++ [UIEvent.reasoning_chunk d.reasoning]) true
      rw [List.append_assoc]
      refine phaseInvER_extend h _ true ?_
      intro rest
      rw [ha]
      simp [phaseOkFrom]
    case isFalse ha =>
      replace ha : st.reasoningActive = true := by
        cases hra : st.reasoningActive
        · exact absurd hra ha
        · rfl
      show phaseInvER (st.events ++ [UIEvent.reasoning_chunk d.reasoning]) st.reasoningActive
      refine phaseInvER_extend h _ st.reasoningActive ?_
      intro rest
      rw [ha]
      simp [phaseOkFrom]

theorem phaseInv_stepContent {st : StreamState} (d : Delta) (h : phaseInv st) :
    phaseInv (stepContent st d) := by
  unfold stepContent
  split
  case isFalse => exact h
  case isTrue hc =>
    split
    case isTrue ha =>
      show phaseInvER ((st.events ++ [UIEvent.thinking_end]) ++ [UIEvent.content_chunk d.content]) false
      rw [List.append_assoc]
      refine phaseInvER_extend h _ false ?_
      intro rest
      rw [ha]
      simp [phaseOkFrom]
    case isFalse ha =>
      replace ha : st.reasoningActive = false := by
        cases hra : st.reasoningActive
        · rfl
        · exact absurd hra ha
      show phaseInvER (st.events ++ [UIEvent.content_chunk d.content]) st.reasoningActive
      refine phaseInvER_extend h _ st.reasoningActive ?_
      intro rest
      rw [ha]
      simp [phaseOkFrom]

theorem phaseInv_stepTools {st : StreamState} (d : Delta) (h : phaseInv st) :
    phaseInv (stepTools st d) := h

theorem phaseInv_streamStep {st : StreamState} (d : Delta) (h : phaseInv st) :
    phaseInv (streamStep st d) :=
  phaseInv_stepTools d (phaseInv_stepContent d (phaseInv_stepReason d h))

theorem phaseInv_foldl :
    ∀ (es : List Delta) (st : StreamState), phaseInv st → phaseInv (es.foldl streamStep st)
  | [], _, h => h
  | d :: es, st, h => by
    rw [List.foldl_cons]
    exact phaseInv_foldl es _ (phaseInv_streamStep d h)

theorem phaseInv_consumeStream (es : List Delta) : phaseInv (consumeStream es) := by
  refine phaseInv_foldl es initStream ?_
  intro rest
  rfl

theorem stepReason_events_suffix (st : StreamState) (d : Delta) :
    ∃ t, (stepReason st d).events = st.events ++ t ∧ t.all isPhase = true := by
  unfold stepReason
  split
  case isFalse => exact ⟨[], by simp⟩
  case isTrue hr =>
    split
    case isTrue ha =>
      refine ⟨[UIEvent.thinking_start, UIEvent.reasoning_chunk d.reasoning], ?_, by simp [isPhase]⟩
      simp
    case isFalse ha =>
      exact ⟨[UIEvent.reasoning_chunk d.reasoning], rfl, by simp [isPhase]⟩

theorem stepContent_events_suffix (st : StreamState) (d : Delta) :
    ∃ t, (stepContent st d).events = st.events ++ t ∧ t.all isPhase = true := by
  unfold stepContent
  split
  case isFalse => exact ⟨[], by simp⟩
  case isTrue hc =>
    split
    case isTrue ha =>
      refine ⟨[UIEvent.thinking_end, UIEvent.content_chunk d.content], ?_, by simp [isPhase]⟩
      simp
    case isFalse ha =>
      exact ⟨[UIEvent.content_chunk d.content], rfl, by simp [isPhase]⟩

theorem stepTools_events (st : StreamState) (d : Delta) :
    (stepTools st d).events = st.events := rfl

theorem streamStep_events_suffix (st : StreamState) (d : Delta) :
    ∃ t, (streamStep st d).events = st.events ++ t ∧ t.all isPhase = true := by
  obtain ⟨t1, h1, p1⟩ := stepReason_events_suffix st d
  obtain ⟨t2, h2, p2⟩ := stepContent_events_suffix (stepReason st d) d
  refine ⟨t1 ++ t2, ?_, ?_⟩
  · show (stepContent (stepReason st d) d).events = _
    rw [h2, h1, List.append_assoc]
  · simp only [List.all_append, p1, p2, Bool.and_self]

theorem mem_events_streamStep {st : StreamState} {e : UIEvent} (d : Delta)
    (h : e ∈ st.events) : e ∈ (streamStep st d).events := by
  obtain ⟨t, ht, -⟩ := streamStep_events_suffix st d
  rw [ht]
  exact List.mem_append_left _ h

theorem mem_events_foldl :
    ∀ (es : List Delta) (st : StreamState) {e : UIEvent},
      e ∈ st.events → e ∈ (es.foldl streamStep st).events
  | [], _, _, h => h
  | d :: es, st, e, h => by
    rw [List.foldl_cons]
    exact mem_events_foldl es _ (mem_events_streamStep d h)

theorem raQ_stepReason {st : StreamState} (d : Delta) (h : raQ st) :
    raQ (stepReason st d) := by
  unfold stepReason
  split
  case isFalse => exact h
  case isTrue hr =>
    split
    case isTrue ha =>
      intro _
      show UIEvent.thinking_start ∈ st.events ++ [UIEvent.thinking_start] ++ _
      simp
    case isFalse ha =>
      replace ha : st.reasoningActive = true := by
        cases hra : st.reasoningActive
        · exact absurd hra ha
        · rfl
      intro _
      exact List.mem_append_left _ (h ha)

theorem raQ_stepContent {st : StreamState} (d : Delta) (h : raQ st) :
    raQ (stepContent st d) := by
  unfold stepContent
  split
  case isFalse => exact h
  case isTrue hc =>
    split
    case isTrue ha =>
      intro hra
      exact absurd hra (by simp)
    case isFalse ha =>
      replace ha : st.reasoningActive = false := by
        cases hra : st.reasoningActive
        · rfl
        · exact absurd hra ha
      intro hra
      exact List.mem_append_left _ (h hra)

theorem raQ_streamStep {st : StreamState} (d : Delta) (h : raQ st) :
    raQ (streamStep st d) :=
  raQ_stepContent d (raQ_stepReason d h)

theorem start_mem_stepReason {st : StreamState} (d : Delta) (h : raQ st)
    (hd : d.reasoning ≠ "") : UIEvent.thinking_start ∈ (stepReason st d).events := by
  unfold stepReason
  rw [if_pos hd]
  split
  case isTrue ha =>
    show UIEvent.thinking_start ∈ st.events ++ [UIEvent.thinking_start] ++ _
    simp
  case isFalse ha =>
    replace ha : st.reasoningActive = true := by
      cases hra : st.reasoningActive
      · exact absurd hra ha
      · rfl
    exact List.mem_append_left _ (h ha)

theorem start_mem_streamStep {st : StreamState} (d : Delta) (h : raQ st)
    (hd : d.reasoning ≠ "") : UIEvent.thinking_start ∈ (streamStep st d).events := by
  obtain ⟨t, ht, -⟩ := stepContent_events_suffix (stepReason st d) d
  show UIEvent.thinking_start ∈ (stepContent (stepReason st d) d).events
  rw [ht]
  exact List.mem_append_left _ (start_mem_stepReason d h hd)

theorem start_emitted :
    ∀ (es : List Delta) (st : StreamState), raQ st →
      (es.any fun d => d.reasoning ≠ "") = true →
      UIEvent.thinking_start ∈ (es.foldl streamStep st).events
  | [], _, _, hany => by simp at hany
  | d :: es, st, h, hany => by
    rw [List.foldl_cons]
    by_cases hd : d.reasoning = ""
    · have hany' : (es.any fun d => d.reasoning ≠ "") = true := by
        simp only [List.any_cons, hd] at hany
        simpa using hany
      exact start_emitted es _ (raQ_streamStep d h) hany'
    · exact mem_events_foldl es _ (start_mem_streamStep d h hd)

/-- Claim C7 (amended): for every event stream of one model call, the
emitted event sequence is well phase-bracketed — every reasoning fragment
lies strictly inside a `thinking_start`/`thinking_end` pair, every content
fragment lies outside any pair, pairs never nest, and every opened pair is
closed (so a `thinking_start` precedes any reasoning fragment and exactly
one `thinking_end` closes the phase before the first content fragment of
that phase); if any non-empty reasoning fragment occurs, a
`thinking_start` is emitted; and late reasoning fragments are still
appended to the accumulated reasoning.  The original claim's "without
re-triggering the start/end markers" is false (see the counterexample):
a reasoning fragment arriving after content has started re-opens a fresh
bracketed phase with a new `thinking_start`. -/
theorem c7_phase_brackets (es : List Delta) :
    phaseOkFrom false (streamEvents es) = true ∧
    ((es.any fun d => d.reasoning ≠ "") = true →
      UIEvent.thinking_start ∈ streamEvents es) ∧
    (consumeStream es).reasoning = strConcat (es.map (·.reasoning)) := by
  refine ⟨?_, ?_, consumeStream_reasoning es⟩
  · unfold streamEvents
    have h := phaseInv_consumeStream es
    cases hra : (consumeStream es).reasoningActive
    · have := h []
      rw [hra] at this
      simpa [phaseOkFrom] using this
    · have := h [UIEvent.thinking_end]
      rw [hra] at this
      simpa [phaseOkFrom] using this
  · intro hany
    have hinit : raQ initStream := by
      intro hra
      simp [initStream] at hra
    exact List.mem_append_left _ (start_emitted es initStream hinit hany)

/-- Witness for C7 (amended) at the interleaved stream `exC7`. -/
theorem c7_witness :
    phaseOkFrom false (streamEvents exC7) = true ∧
    UIEvent.thinking_start ∈ streamEvents exC7 :=
  ⟨(c7_phase_brackets exC7).1, (c7_phase_brackets exC7).2.1 (by decide)⟩

/-- Counterexample to claim C7 as stated: on the stream reasoning "a",
content "b", reasoning "c", the code emits a second `thinking_start`
(and later a second `thinking_end`) for the reasoning fragment that
arrives after content started — the markers are re-triggered, while the
fragment is indeed still appended. -/
theorem c7_counterexample :
    streamEvents exC7 =
      [UIEvent.thinking_start, UIEvent.reasoning_chunk "a", UIEvent.thinking_end,
       UIEvent.content_chunk "b", UIEvent.thinking_start, UIEvent.reasoning_chunk "c",
       UIEvent.thinking_end] ∧
    List.countP isStart (streamEvents exC7) = 2 ∧
    (consumeStream exC7).reasoning = "ac" := by
  refine ⟨by decide, by decide, ?_⟩
  decide

/-! ## Tool-call accumulation (C5) -/

theorem toolcall_eq_of (x y : ToolCall) (h1 : x.id = y.id) (h2 : x.name = y.name)
    (h3 : x.arguments = y.arguments) : x = y := by
  cases x; cases y; simp_all

theorem updateKey_cons (i : Nat) (g : ToolCall → ToolCall) (k : Nat) (v : ToolCall)
    (acc : List (Nat × ToolCall)) :
    updateKey i g ((k, v) :: acc) =
      (if k = i then (k, g v) else (k, v)) :: updateKey i g acc := by
  unfold updateKey
  rw [List.map_cons]

theorem lookupN_append_some {i : Nat} {a : List (Nat × ToolCall)} {v : ToolCall}
    (h : lookupN i a = some v) (b : List (Nat × ToolCall)) :
    lookupN i (a ++ b) = some v := by
  induction a with
  | nil => exact absurd h (by simp [lookupN])
  | cons p a ih =>
    obtain ⟨k, w⟩ := p
    by_cases hk : k = i
    · simp only [lookupN, if_pos hk] at h
      simp only [List.cons_append, lookupN, if_pos hk]
      exact h
    · simp only [lookupN, if_neg hk] at h
      simp only [List.cons_append, lookupN, if_neg hk]
      exact ih h

theorem lookupN_append_none {i : Nat} {a : List (Nat × ToolCall)}
    (h : lookupN i a = none) (b : List (Nat × ToolCall)) :
    lookupN i (a ++ b) = lookupN i b := by
  induction a with
  | nil => rfl
  | cons p a ih =>
    obtain ⟨k, w⟩ := p
    by_cases hk : k = i
    · simp [lookupN, if_pos hk] at h
    · simp only [lookupN, if_neg hk] at h
      simp only [List.cons_append, lookupN, if_neg hk]
      exact ih h

theorem lookupN_updateKey_self (i : Nat) (g : ToolCall → ToolCall) :
    ∀ acc : List (Nat × ToolCall),
      lookupN i (updateKey i g acc) = (lookupN i acc).map g
  | [] => rfl
  | (k, v) :: acc => by
    by_cases hk : k = i
    · subst hk
      rw [updateKey_cons, if_pos rfl]
      show (if k = k then some (g v) else lookupN k (updateKey k g acc))
          = (if k = k then some v else lookupN k acc).map g
      rw [if_pos rfl, if_pos rfl]
      rfl
    · rw [updateKey_cons, if_neg hk]
      show (if k = i then some v else lookupN i (updateKey i g acc))
          = (if k = i then some v else lookupN i acc).map g
      rw [if_neg hk, if_neg hk]
      exact lookupN_updateKey_self i g acc

theorem lookupN_updateKey_ne (i j : Nat) (g : ToolCall → ToolCall) (h : j ≠ i) :
    ∀ acc : List (Nat × ToolCall),
      lookupN j (updateKey i g acc) = lookupN j acc
  | [] => rfl
  | (k, v) :: acc => by
    by_cases hk : k = i
    · subst hk
      rw [updateKey_cons, if_pos rfl]
      have hkj : ¬ k = j := fun hh => h hh.symm
      show (if k = j then some (g v) else lookupN j (updateKey k g acc))
          = (if k = j then some v else lookupN j acc)
      rw [if_neg hkj, if_neg hkj]
      exact lookupN_updateKey_ne k j g h acc
    · rw [updateKey_cons, if_neg hk]
      show (if k = j then some v else lookupN j (updateKey i g acc))
          = (if k = j then some v else lookupN j acc)
      by_cases hkj : k = j
      · rw [if_pos hkj, if_pos hkj]
      · rw [if_neg hkj, if_neg hkj]
        exact lookupN_updateKey_ne i j g h acc

theorem updateKey_fst (i : Nat) (g : ToolCall → ToolCall) (acc : List (Nat × ToolCall)) :
    (updateKey i g acc).map Prod.fst = acc.map Prod.fst := by
  unfold updateKey
  rw [List.map_map]
  apply List.map_congr_left
  intro p _
  by_cases hp : p.1 = i <;> simp [hp]

theorem lookupN_isSome_iff (i : Nat) :
    ∀ acc : List (Nat × ToolCall),
      (lookupN i acc).isSome = true ↔ i ∈ acc.map Prod.fst
  | [] => by simp [lookupN]
  | (k, v) :: acc => by
    by_cases hk : k = i
    · simp [lookupN, hk]
    · simp only [lookupN, if_neg hk, List.map_cons, List.mem_cons]
      rw [lookupN_isSome_iff i acc]
      constructor
      · exact Or.inr
      · rintro (h | h)
        · exact absurd h.symm hk
        · exact h

theorem updateKey_append (i : Nat) (g : ToolCall → ToolCall) (a b : List (Nat × ToolCall)) :
    updateKey i g (a ++ b) = updateKey i g a ++ updateKey i g b :=
  List.map_append _ a b

theorem tcStep_lookup_self (acc : List (Nat × ToolCall)) (f : ToolCallDelta) :
    lookupN f.index (tcStep acc f) = applyFrag (lookupN f.index acc) f := by
  unfold tcStep
  by_cases hs : (lookupN f.index acc).isSome = true
  · rw [if_pos hs, lookupN_updateKey_self]
    obtain ⟨v, hv⟩ := Option.isSome_iff_exists.mp hs
    rw [hv]
    rfl
  · have hv : lookupN f.index acc = none := by
      cases hvv : lookupN f.index acc
      · rfl
      · rw [hvv] at hs; simp at hs
    rw [if_neg hs, updateKey_append]
    have h1 : lookupN f.index (updateKey f.index (fun a => tcUpd a f) acc) = none := by
      rw [lookupN_updateKey_self, hv]; rfl
    rw [lookupN_append_none h1]
    show lookupN f.index (updateKey f.index _ [(f.index, ⟨f.id, f.name, ""⟩)]) = _
    rw [lookupN_updateKey_self]
    simp [lookupN, applyFrag, hv]

theorem tcStep_lookup_ne (acc : List (Nat × ToolCall)) (f : ToolCallDelta) {j : Nat}
    (h : j ≠ f.index) : lookupN j (tcStep acc f) = lookupN j acc := by
  unfold tcStep
  split
  · exact lookupN_updateKey_ne _ _ _ h acc
  · rw [updateKey_append]
    cases hv : lookupN j (updateKey f.index (fun a => tcUpd a f) acc) with
    | some v =>
      rw [lookupN_append_some hv]
      rw [lookupN_updateKey_ne _ _ _ h] at hv
      exact hv.symm
    | none =>
      rw [lookupN_append_none hv]
      rw [lookupN_updateKey_ne _ _ _ h] at hv
      have hne : ¬ f.index = j := fun hh => h hh.symm
      rw [lookupN_updateKey_ne _ _ _ h]
      show (if f.index = j then some _ else none) = lookupN j acc
      rw [if_neg hne, hv]

theorem foldl_tcStep_lookup :
    ∀ (fs : List ToolCallDelta) (acc : List (Nat × ToolCall)) (i : Nat),
      lookupN i (fs.foldl tcStep acc) = (fragsAt i fs).foldl applyFrag (lookupN i acc)
  | [], acc, i => rfl
  | f :: fs, acc, i => by
    rw [List.foldl_cons, foldl_tcStep_lookup fs]
    by_cases hi : f.index = i
    · subst hi
      rw [tcStep_lookup_self]
      have hfr : fragsAt f.index (f :: fs) = f :: fragsAt f.index fs := by
        simp [fragsAt]
      rw [hfr, List.foldl_cons]
    · rw [tcStep_lookup_ne acc f (fun hh => hi hh.symm)]
      have hfr : fragsAt i (f :: fs) = fragsAt i fs := by
        simp [fragsAt, hi]
      rw [hfr]

theorem tcStep_fst (acc : List (Nat × ToolCall)) (f : ToolCallDelta) :
    (tcStep acc f).map Prod.fst =
      if f.index ∈ acc.map Prod.fst then acc.map Prod.fst
      else acc.map Prod.fst ++ [f.index] := by
  unfold tcStep
  by_cases hm : f.index ∈ acc.map Prod.fst
  · have hs : (lookupN f.index acc).isSome = true := (lookupN_isSome_iff _ acc).mpr hm
    rw [if_pos hs, if_pos hm]
    exact updateKey_fst _ _ acc
  · have hs : ¬(lookupN f.index acc).isSome = true := fun h =>
      hm ((lookupN_isSome_iff _ acc).mp h)
    rw [if_neg hs, if_neg hm, updateKey_fst _ _ _]
    simp

theorem firstSeen_cons (ks : List Nat) (f : ToolCallDelta) (fs : List ToolCallDelta) :
    firstSeen ks (f :: fs) =
      firstSeen (if f.index ∈ ks then ks else ks ++ [f.index]) fs := rfl

theorem foldl_tcStep_fst :
    ∀ (fs : List ToolCallDelta) (acc : List (Nat × ToolCall)),
      (fs.foldl tcStep acc).map Prod.fst = firstSeen (acc.map Prod.fst) fs
  | [], acc => rfl
  | f :: fs, acc => by
    rw [List.foldl_cons, foldl_tcStep_fst fs, tcStep_fst, firstSeen_cons]

theorem firstSeen_nodup :
    ∀ (fs : List ToolCallDelta) (ks : List Nat), ks.Nodup → (firstSeen ks fs).Nodup
  | [], ks, h => h
  | f :: fs, ks, h => by
    rw [firstSeen_cons]
    by_cases hm : f.index ∈ ks
    · rw [if_pos hm]
      exact firstSeen_nodup fs ks h
    · rw [if_neg hm]
      refine firstSeen_nodup fs _ ?_
      simp [List.nodup_append, h, hm]

theorem mem_firstSeen :
    ∀ (fs : List ToolCallDelta) (ks : List Nat) (i : Nat),
      i ∈ firstSeen ks fs ↔ i ∈ ks ∨ i ∈ fs.map (·.index)
  | [], ks, i => by simp [firstSeen]
  | f :: fs, ks, i => by
    rw [firstSeen_cons]
    by_cases hm : f.index ∈ ks
    · rw [if_pos hm, mem_firstSeen fs ks i]
      simp only [List.map_cons, List.mem_cons]
      constructor
      · rintro (h | h)
        · exact Or.inl h
        · exact Or.inr (Or.inr h)
      · rintro (h | h | h)
        · exact Or.inl h
        · exact Or.inl (h ▸ hm)
        · exact Or.inr h
    · rw [if_neg hm, mem_firstSeen fs (ks ++ [f.index]) i]
      simp only [List.mem_append, List.mem_singleton, List.map_cons, List.mem_cons]
      tauto

theorem tcUpd_id (a : ToolCall) (f : ToolCallDelta) :
    (tcUpd a f).id = if f.id = "" then a.id else f.id := by
  unfold tcUpd
  by_cases h1 : f.id = "" <;> by_cases h2 : f.name = "" <;> by_cases h3 : f.arguments = "" <;>
    simp [h1, h2, h3]

theorem tcUpd_name (a : ToolCall) (f : ToolCallDelta) :
    (tcUpd a f).name = if f.name = "" then a.name else f.name := by
  unfold tcUpd
  by_cases h1 : f.id = "" <;> by_cases h2 : f.name = "" <;> by_cases h3 : f.arguments = "" <;>
    simp [h1, h2, h3]

theorem tcUpd_args (a : ToolCall) (f : ToolCallDelta) :
    (tcUpd a f).arguments = a.arguments ++ f.arguments := by
  unfold tcUpd
  by_cases h1 : f.id = "" <;> by_cases h2 : f.name = "" <;> by_cases h3 : f.arguments = "" <;>
    simp [h1, h2, h3, String.append_empty]

theorem foldl_applyFrag_some :
    ∀ (frs : List ToolCallDelta) (v : ToolCall),
      frs.foldl applyFrag (some v) = some (frs.foldl tcUpd v)
  | [], v => rfl
  | f :: frs, v => by
    rw [List.foldl_cons, List.foldl_cons]
    show (frs.foldl applyFrag (some (tcUpd v f))) = _
    exact foldl_applyFrag_some frs (tcUpd v f)

theorem foldl_tcUpd_id :
    ∀ (frs : List ToolCallDelta) (v : ToolCall),
      (frs.foldl tcUpd v).id = lastNEFrom v.id (frs.map (·.id))
  | [], v => rfl
  | f :: frs, v => by
    rw [List.foldl_cons, foldl_tcUpd_id frs, tcUpd_id]
    unfold lastNEFrom
    rw [List.map_cons, List.foldl_cons]

theorem foldl_tcUpd_name :
    ∀ (frs : List ToolCallDelta) (v : ToolCall),
      (frs.foldl tcUpd v).name = lastNEFrom v.name (frs.map (·.name))
  | [], v => rfl
  | f :: frs, v => by
    rw [List.foldl_cons, foldl_tcUpd_name frs, tcUpd_name]
    unfold lastNEFrom
    rw [List.map_cons, List.foldl_cons]

theorem foldl_tcUpd_args :
    ∀ (frs : List ToolCallDelta) (v : ToolCall),
      (frs.foldl tcUpd v).arguments = v.arguments ++ strConcat (frs.map (·.arguments))
  | [], v => by simp [strConcat]
  | f :: frs, v => by
    rw [List.foldl_cons, foldl_tcUpd_args frs, tcUpd_args]
    simp [strConcat, String.append_assoc]

theorem lastNE_cons (x : String) (xs : List String) :
    lastNE (x :: xs) = lastNEFrom x xs := by
  unfold lastNE lastNEFrom
  rw [List.foldl_cons]
  by_cases h : x = "" <;> simp [h]

theorem entry_spec (i : Nat) (fs : List ToolCallDelta) (h : fragsAt i fs ≠ []) :
    (fragsAt i fs).foldl applyFrag none = some (specEntry i fs) := by
  cases hfr : fragsAt i fs with
  | nil => exact absurd hfr h
  | cons f0 rest =>
    rw [List.foldl_cons]
    show rest.foldl applyFrag (some (tcUpd ⟨f0.id, f0.name, ""⟩ f0)) = _
    rw [foldl_applyFrag_some]
    refine congrArg some (toolcall_eq_of _ _ ?_ ?_ ?_)
    · rw [foldl_tcUpd_id, tcUpd_id]
      simp only [specEntry, hfr, List.map_cons, lastNE_cons]
      by_cases h0 : f0.id = "" <;> simp [h0]
    · rw [foldl_tcUpd_name, tcUpd_name]
      simp only [specEntry, hfr, List.map_cons, lastNE_cons]
      by_cases h0 : f0.name = "" <;> simp [h0]
    · rw [foldl_tcUpd_args, tcUpd_args]
      simp only [specEntry, hfr, List.map_cons]
      show ("" : String) ++ f0.arguments ++ _ = _
      rw [String.empty_append]
      rfl

theorem filterMap_eq_map_of_some {α β : Type _} (F : α → Option β) (G : α → β) :
    ∀ l : List α, (∀ i ∈ l, F i = some (G i)) → l.filterMap F = l.map G
  | [], _ => rfl
  | i :: l, h => by
    rw [List.filterMap_cons_some (h i (List.mem_cons_self i l)), List.map_cons,
      filterMap_eq_map_of_some F G l fun j hj => h j (List.mem_cons_of_mem i hj)]

/-- Claim C5: for every finite sequence of tool-call fragments, the
finalized tool-call list enumerates exactly the indices seen, ordered by
index ascending regardless of fragment arrival order (`sorted_keys` is
strictly sorted and contains an index iff some fragment carried it), and
the entry at each index `i` is `specEntry i`: `argumentsJSON` is the
concatenation, in arrival order, of that index's argument fragments, while
`id` and `name` take the last non-empty value seen. -/
theorem c5_finalized_tool_calls (es : List Delta) :
    finalizePairs (consumeStream es).tcs
        = (sorted_keys (consumeStream es).tcs).map
            (fun i => (i, specEntry i (es.flatMap (·.tool_calls)))) ∧
    tool_calls_list (consumeStream es).tcs
        = (sorted_keys (consumeStream es).tcs).map
            (fun i => specEntry i (es.flatMap (·.tool_calls))) ∧
    List.Sorted (· < ·) (sorted_keys (consumeStream es).tcs) ∧
    (∀ i : Nat, i ∈ sorted_keys (consumeStream es).tcs ↔
        i ∈ (es.flatMap (·.tool_calls)).map (·.index)) := by
  have hacc : (consumeStream es).tcs = (es.flatMap (·.tool_calls)).foldl tcStep [] :=
    consumeStream_tcs es
  have hkeys : ((consumeStream es).tcs).map Prod.fst = firstSeen [] (es.flatMap (·.tool_calls)) := by
    rw [hacc, foldl_tcStep_fst]
    rfl
  have hnd : (firstSeen [] (es.flatMap (·.tool_calls))).Nodup :=
    firstSeen_nodup _ [] List.nodup_nil
  have hndK : (((consumeStream es).tcs).map Prod.fst).Nodup := by rw [hkeys]; exact hnd
  have hndS : (sorted_keys (consumeStream es).tcs).Nodup := by
    unfold sorted_keys
    exact ((List.perm_insertionSort _ _).symm).nodup hndK
  have hmem : ∀ i : Nat, i ∈ sorted_keys (consumeStream es).tcs ↔
      i ∈ (es.flatMap (·.tool_calls)).map (·.index) := by
    intro i
    unfold sorted_keys
    rw [(List.perm_insertionSort _ _).mem_iff, hkeys, mem_firstSeen]
    simp
  have hlook : ∀ i ∈ sorted_keys (consumeStream es).tcs,
      lookupN i (consumeStream es).tcs = some (specEntry i (es.flatMap (·.tool_calls))) := by
    intro i hi
    have hidx : i ∈ (es.flatMap (·.tool_calls)).map (·.index) := (hmem i).mp hi
    obtain ⟨f, hf, hfi⟩ := List.mem_map.mp hidx
    have hne : fragsAt i (es.flatMap (·.tool_calls)) ≠ [] := by
      intro hnil
      have hmemf : f ∈ fragsAt i (es.flatMap (·.tool_calls)) :=
        List.mem_filter.mpr ⟨hf, by simp [hfi]⟩
      rw [hnil] at hmemf
      exact absurd hmemf (List.not_mem_nil f)
    rw [hacc, foldl_tcStep_lookup]
    exact entry_spec i _ hne
  have hpairs : finalizePairs (consumeStream es).tcs
      = (sorted_keys (consumeStream es).tcs).map
          (fun i => (i, specEntry i (es.flatMap (·.tool_calls)))) := by
    unfold finalizePairs
    refine filterMap_eq_map_of_some _ _ _ ?_
    intro i hi
    show (lookupN i (consumeStream es).tcs).map _ = _
    rw [hlook i hi]
    rfl
  refine ⟨hpairs, ?_, ?_, hmem⟩
  · unfold tool_calls_list
    rw [hpairs, List.map_map]
    rfl
  · refine List.Sorted.lt_of_le ?_ hndS
    unfold sorted_keys
    exact List.sorted_insertionSort _ _

/-- Witness for C5 at a concrete stream whose fragments arrive out of
index order with split argument strings: the finalized pairs are
index-ascending with the arguments reassembled. -/
theorem c5_witness :
    finalizePairs (consumeStream exC5).tcs =
      [(0, ⟨"tc1", "read_file", "\x7b\x7d"⟩), (1, ⟨"tc2", "write_file", "\x7b\x7d"⟩)] :=
  ((c5_finalized_tool_calls exC5).1).trans (by decide)

/-! ## The agent loop -/

theorem execCalls_ok (jp : JsonLoads) (rg : Registry) (tcl : List ToolCall) (c : String) :
    ∀ (rest : List ToolCall) (st : LoopState), rest.all (parseOk jp) = true →
      execCalls jp rg tcl c rest st =
        (⟨st.conv ++ rest.map (convToolTurn jp rg),
          st.msgs ++ rest.flatMap (fun tc =>
            [⟨"assistant", c, tcl, none, none⟩,
             ⟨"tool", toolResultOf jp rg tc, [], some tc.name, some tc.id⟩]),
          st.events ++ rest.flatMap (fun tc =>
            [.tool_call tc.name (okValD (jp tc.arguments)) tc.id,
             .tool_result tc.name (toolResultOf jp rg tc) tc.id]),
          st.calls⟩,
         none)
  | [], st, _ => by simp [execCalls]
  | tc :: rest, st, hall => by
    obtain ⟨h1, h2⟩ : parseOk jp tc = true ∧ rest.all (parseOk jp) = true := by
      simpa using hall
    obtain ⟨a, ha⟩ : ∃ a, jp tc.arguments = .ok a := by
      unfold parseOk exOk at h1
      cases hj : jp tc.arguments
      · rw [hj] at h1; exact absurd h1 (by simp)
      · exact ⟨_, rfl⟩
    simp only [execCalls, ha]
    rw [execCalls_ok jp rg tcl c rest _ h2]
    have hok : okValD (Except.ok a) = a := rfl
    have hres : toolResultOf jp rg tc = execute_tool rg tc.name a := by
      unfold toolResultOf
      rw [ha, hok]
    simp [convToolTurn, hres, ha, hok, List.append_assoc]

theorem sendLoopAux_stop (jp : JsonLoads) (rg : Registry) (resps : Nat → ModelResp)
    (fuel k : Nat) (st : LoopState) (hk : ¬ k < max_iterations) :
    sendLoopAux jp rg resps (fuel + 1) k st =
      ⟨st.conv, st.msgs, st.events, st.calls, k, .exhausted⟩ := by
  unfold sendLoopAux
  rw [if_neg hk]

theorem sendLoopAux_fail (jp : JsonLoads) (rg : Registry) (resps : Nat → ModelResp)
    (fuel k : Nat) (st : LoopState) (e : String) (hk : k < max_iterations)
    (he : (resps (k + 1)).failure = some e) :
    sendLoopAux jp rg resps (fuel + 1) k st =
      ⟨st.conv, st.msgs,
       st.events ++ (consumeStream (resps (k + 1)).deltas).events ++
         [.error ("Error communicating with API: " ++ e)],
       st.calls ++ [st.msgs], k + 1, .errored⟩ := by
  unfold sendLoopAux
  rw [if_pos hk, he]

theorem sendLoopAux_done (jp : JsonLoads) (rg : Registry) (resps : Nat → ModelResp)
    (fuel k : Nat) (st : LoopState) (hk : k < max_iterations)
    (hfail : (resps (k + 1)).failure = none)
    (htcl : tool_calls_list (consumeStream (resps (k + 1)).deltas).tcs = []) :
    sendLoopAux jp rg resps (fuel + 1) k st =
      ⟨(if (consumeStream (resps (k + 1)).deltas).content ≠ "" then
          st.conv ++ [⟨"assistant", (consumeStream (resps (k + 1)).deltas).content, [], none⟩]
        else st.conv),
       st.msgs, st.events ++ streamEvents (resps (k + 1)).deltas ++ [.complete],
       st.calls ++ [st.msgs], k + 1, .completed⟩ := by
  unfold sendLoopAux
  rw [if_pos hk, hfail, if_neg (fun hh => hh htcl)]

theorem sendLoopAux_tools (jp : JsonLoads) (rg : Registry) (resps : Nat → ModelResp)
    (fuel k : Nat) (st : LoopState) (hk : k < max_iterations)
    (hfail : (resps (k + 1)).failure = none)
    (htcl : tool_calls_list (consumeStream (resps (k + 1)).deltas).tcs ≠ []) :
    sendLoopAux jp rg resps (fuel + 1) k st =
      (match execCalls jp rg
          (tool_calls_list (consumeStream (resps (k + 1)).deltas).tcs)
          (consumeStream (resps (k + 1)).deltas).content
          (tool_calls_list (consumeStream (resps (k + 1)).deltas).tcs)
          (⟨st.conv ++
              [⟨"assistant", (consumeStream (resps (k + 1)).deltas).content,
                tool_calls_list (consumeStream (resps (k + 1)).deltas).tcs, none⟩],
            st.msgs, st.events ++ streamEvents (resps (k + 1)).deltas,
            st.calls ++ [st.msgs]⟩ : LoopState) with
       | (st3, none) => sendLoopAux jp rg resps fuel (k + 1) st3
       | (st3, some e) =>
         ⟨st3.conv, st3.msgs,
          st3.events ++ [.error ("Error communicating with API: " ++ e)],
          st3.calls, k + 1, .errored⟩) := by
  conv_lhs => unfold sendLoopAux
  rw [if_pos hk, hfail, if_pos htcl]

theorem events_all_phase_foldl :
    ∀ (es : List Delta) (st : StreamState), st.events.all isPhase = true →
      ((es.foldl streamStep st).events).all isPhase = true
  | [], _, h => h
  | d :: es, st, h => by
    rw [List.foldl_cons]
    refine events_all_phase_foldl es _ ?_
    obtain ⟨t, ht, hp⟩ := streamStep_events_suffix st d
    rw [ht, List.all_append, h, hp]
    rfl

theorem streamEvents_all_phase (es : List Delta) :
    (streamEvents es).all isPhase = true := by
  unfold streamEvents
  rw [List.all_append]
  have h1 : ((consumeStream es).events).all isPhase = true :=
    events_all_phase_foldl es initStream rfl
  rw [h1]
  split <;> rfl

theorem countP_zero_of_all_phase (p : UIEvent → Bool)
    (hp : ∀ e, isPhase e = true → p e = false) :
    ∀ l : List UIEvent, l.all isPhase = true → l.countP p = 0 := by
  intro l hl
  rw [List.countP_eq_zero]
  intro a ha
  have := (List.all_eq_true.mp hl) a ha
  simp [hp a this]

theorem countP_isWarning_streamEvents (es : List Delta) :
    (streamEvents es).countP isWarning = 0 := by
  refine countP_zero_of_all_phase isWarning ?_ _ (streamEvents_all_phase es)
  intro e he
  cases e <;> first | rfl | simp [isPhase] at he

theorem countP_isError_stream (es : List Delta) :
    ((consumeStream es).events).countP isError = 0 := by
  refine countP_zero_of_all_phase isError ?_ _ (events_all_phase_foldl es initStream rfl)
  intro e he
  cases e <;> first | rfl | simp [isPhase] at he

theorem execCalls_countP (jp : JsonLoads) (rg : Registry) (tcl : List ToolCall) (c : String)
    (p : UIEvent → Bool) (hp1 : ∀ n a i, p (.tool_call n a i) = false)
    (hp2 : ∀ n r i, p (.tool_result n r i) = false) :
    ∀ (rest : List ToolCall) (st : LoopState),
      ((execCalls jp rg tcl c rest st).1.events).countP p = st.events.countP p
  | [], st => rfl
  | tc :: rest, st => by
    show ((match jp tc.arguments with
           | .error e => (st, some e)
           | .ok args => _).1.events).countP p = _
    cases hj : jp tc.arguments with
    | error e => rfl
    | ok args =>
      rw [execCalls_countP jp rg tcl c p hp1 hp2 rest _]
      show (st.events ++ _).countP p = _
      rw [List.countP_append]
      simp [List.countP_cons, hp1, hp2]

theorem loop_iteration_le (jp : JsonLoads) (rg : Registry) (resps : Nat → ModelResp) :
    ∀ (fuel k : Nat) (st : LoopState), k ≤ max_iterations →
      (sendLoopAux jp rg resps fuel k st).iteration ≤ max_iterations
  | 0, k, st, hk => hk
  | fuel + 1, k, st, hk => by
    by_cases hlt : k < max_iterations
    · cases hfail : (resps (k + 1)).failure with
      | some e =>
        rw [sendLoopAux_fail jp rg resps fuel k st e hlt hfail]
        exact hlt
      | none =>
        by_cases htcl : tool_calls_list (consumeStream (resps (k + 1)).deltas).tcs = []
        · rw [sendLoopAux_done jp rg resps fuel k st hlt hfail htcl]
          exact hlt
        · rw [sendLoopAux_tools jp rg resps fuel k st hlt hfail htcl]
          rcases hexec : execCalls jp rg
              (tool_calls_list (consumeStream (resps (k + 1)).deltas).tcs)
              (consumeStream (resps (k + 1)).deltas).content
              (tool_calls_list (consumeStream (resps (k + 1)).deltas).tcs)
              (⟨st.conv ++
                  [⟨"assistant", (consumeStream (resps (k + 1)).deltas).content,
                    tool_calls_list (consumeStream (resps (k + 1)).deltas).tcs, none⟩],
                st.msgs, st.events ++ streamEvents (resps (k + 1)).deltas,
                st.calls ++ [st.msgs]⟩ : LoopState) with ⟨st3, o⟩
      
          rw [hexec]
          cases o with
          | none => exact loop_iteration_le jp rg resps fuel (k + 1) st3 hlt
          | some e => exact hlt
    · rw [sendLoopAux_stop jp rg resps fuel k st hlt]
      exact hk

theorem countP_isWarning_stream (es : List Delta) :
    ((consumeStream es).events).countP isWarning = 0 := by
  refine countP_zero_of_all_phase isWarning ?_ _ (events_all_phase_foldl es initStream rfl)
  intro e he
  cases e <;> first | rfl | simp [isPhase] at he

theorem loop_no_warning (jp : JsonLoads) (rg : Registry) (resps : Nat → ModelResp) :
    ∀ (fuel k : Nat) (st : LoopState),
      ((sendLoopAux jp rg resps fuel k st).events).countP isWarning =
        st.events.countP isWarning
  | 0, k, st => rfl
  | fuel + 1, k, st => by
    by_cases hlt : k < max_iterations
    · cases hfail : (resps (k + 1)).failure with
      | some e =>
        rw [sendLoopAux_fail jp rg resps fuel k st e hlt hfail]
        show (st.events ++ _ ++ _).countP isWarning = _
        rw [List.countP_append, List.countP_append, countP_isWarning_stream]
        simp [List.countP_cons, isWarning]
      | none =>
        by_cases htcl : tool_calls_list (consumeStream (resps (k + 1)).deltas).tcs = []
        · rw [sendLoopAux_done jp rg resps fuel k st hlt hfail htcl]
          show (st.events ++ _ ++ _).countP isWarning = _
          rw [List.countP_append, List.countP_append, countP_isWarning_streamEvents]
          simp [List.countP_cons, isWarning]
        · rw [sendLoopAux_tools jp rg resps fuel k st hlt hfail htcl]
          rcases hexec : execCalls jp rg
              (tool_calls_list (consumeStream (resps (k + 1)).deltas).tcs)
              (consumeStream (resps (k + 1)).deltas).content
              (tool_calls_list (consumeStream (resps (k + 1)).deltas).tcs)
              (⟨st.conv ++
                  [⟨"assistant", (consumeStream (resps (k + 1)).deltas).content,
                    tool_calls_list (consumeStream (resps (k + 1)).deltas).tcs, none⟩],
                st.msgs, st.events ++ streamEvents (resps (k + 1)).deltas,
                st.calls ++ [st.msgs]⟩ : LoopState) with ⟨st3, o⟩
          have h3 : (st3.events).countP isWarning = st.events.countP isWarning := by
            have := execCalls_countP jp rg
              (tool_calls_list (consumeStream (resps (k + 1)).deltas).tcs)
              (consumeStream (resps (k + 1)).deltas).content
              isWarning (fun _ _ _ => rfl) (fun _ _ _ => rfl)
              (tool_calls_list (consumeStream (resps (k + 1)).deltas).tcs)
              (⟨st.conv ++
                  [⟨"assistant", (consumeStream (resps (k + 1)).deltas).content,
                    tool_calls_list (consumeStream (resps (k + 1)).deltas).tcs, none⟩],
                st.msgs, st.events ++ streamEvents (resps (k + 1)).deltas,
                st.calls ++ [st.msgs]⟩ : LoopState)
            rw [hexec] at this
            show ((st3, o).1.events).countP isWarning = _
            rw [this]
            show (st.events ++ streamEvents (resps (k + 1)).deltas).countP isWarning = _
            rw [List.countP_append, countP_isWarning_streamEvents]
            omega
          rw [hexec]
          cases o with
          | none =>
            rw [loop_no_warning jp rg resps fuel (k + 1) st3]
            exact h3
          | some e =>
            show (st3.events ++ _).countP isWarning = _
            rw [List.countP_append, h3]
            simp [List.countP_cons, isWarning]
    · rw [sendLoopAux_stop jp rg resps fuel k st hlt]

theorem loop_toolish (jp : JsonLoads) (rg : Registry) (resps : Nat → ModelResp)
    (ht : ∀ it, toolish jp (resps it) = true) :
    ∀ (fuel k : Nat) (st : LoopState), max_iterations ≤ fuel + k → k ≤ max_iterations →
      (sendLoopAux jp rg resps fuel k st).iteration = max_iterations ∧
      (sendLoopAux jp rg resps fuel k st).status = .exhausted
  | 0, k, st, hfk, hk => by
    have hke : k = max_iterations := le_antisymm hk (by simpa using hfk)
    exact ⟨hke, rfl⟩
  | fuel + 1, k, st, hfk, hk => by
    by_cases hlt : k < max_iterations
    · have htk := ht (k + 1)
      unfold toolish at htk
      obtain ⟨⟨h1, h2⟩, h3⟩ := by
        simpa [Bool.and_eq_true] using htk
      have hfail : (resps (k + 1)).failure = none := h1
      have htcl : tool_calls_list (consumeStream (resps (k + 1)).deltas).tcs ≠ [] := h2
      have hparse : (tool_calls_list (consumeStream (resps (k + 1)).deltas).tcs).all
          (parseOk jp) = true := List.all_eq_true.mpr h3
      have hstep : sendLoopAux jp rg resps (fuel + 1) k st =
          sendLoopAux jp rg resps fuel (k + 1)
            ⟨(st.conv ++
                [⟨"assistant", (consumeStream (resps (k + 1)).deltas).content,
                  tool_calls_list (consumeStream (resps (k + 1)).deltas).tcs, none⟩]) ++
               (tool_calls_list (consumeStream (resps (k + 1)).deltas).tcs).map
                 (convToolTurn jp rg),
             st.msgs ++
               (tool_calls_list (consumeStream (resps (k + 1)).deltas).tcs).flatMap (fun tc =>
                 [⟨"assistant", (consumeStream (resps (k + 1)).deltas).content,
                   tool_calls_list (consumeStream (resps (k + 1)).deltas).tcs, none, none⟩,
                  ⟨"tool", toolResultOf jp rg tc, [], some tc.name, some tc.id⟩]),
             (st.events ++ streamEvents (resps (k + 1)).deltas) ++
               (tool_calls_list (consumeStream (resps (k + 1)).deltas).tcs).flatMap (fun tc =>
                 [.tool_call tc.name (okValD (jp tc.arguments)) tc.id,
                  .tool_result tc.name (toolResultOf jp rg tc) tc.id]),
             st.calls ++ [st.msgs]⟩ := by
        rw [sendLoopAux_tools jp rg resps fuel k st hlt hfail htcl,
          execCalls_ok jp rg _ _ _ _ hparse]
      rw [hstep]
      exact loop_toolish jp rg resps ht fuel (k + 1) _ (by omega) hlt
    · have hke : k = max_iterations := le_antisymm hk (le_of_not_lt hlt)
      rw [sendLoopAux_stop jp rg resps fuel k st hlt]
      exact ⟨hke, rfl⟩

theorem wfConv_append_turn (l : List Message) (t : Message) (h : wfConv l)
    (ht : wfStep (some []) t = some []) : wfConv (l ++ [t]) := by
  unfold wfConv at h ⊢
  rw [List.foldl_append, h]
  show wfStep (some []) t = some []
  exact ht

theorem wfStep_assistant_final (content : String) :
    wfStep (some []) ⟨"assistant", content, [], none⟩ = some [] := by
  show (if ("assistant" : String) = "tool" then none
        else if ("assistant" : String) = "assistant" ∧ ([] : List ToolCall) ≠ [] then some []
        else some []) = some []
  rw [if_neg (by decide)]
  split <;> rfl

theorem wfStep_user (content : String) :
    wfStep (some []) ⟨"user", content, [], none⟩ = some [] := by
  show (if ("user" : String) = "tool" then none
        else if ("user" : String) = "assistant" ∧ ([] : List ToolCall) ≠ [] then some []
        else some []) = some []
  rw [if_neg (by decide), if_neg (by simp)]

theorem wf_eat (jp : JsonLoads) (rg : Registry) :
    ∀ cs : List ToolCall, cs.all (goodCall jp) = true →
      List.foldl wfStep (some cs) (cs.map (convToolTurn jp rg)) = some []
  | [], _ => rfl
  | c :: cs, h => by
    obtain ⟨hc, hcs⟩ : goodCall jp c = true ∧ cs.all (goodCall jp) = true := by
      simpa using h
    have hname : c.name ≠ "" := by
      unfold goodCall at hc
      obtain ⟨h1, -⟩ : (!(c.name == "")) = true ∧ parseOk jp c = true := by simpa using hc
      intro heq
      simp [heq] at h1
    rw [List.map_cons, List.foldl_cons]
    have hstep : wfStep (some (c :: cs)) (convToolTurn jp rg c) = some cs := by
      show (if ("tool" : String) = "tool" ∧ some c.name = some c.name ∧ c.name ≠ ""
            then some cs else none) = some cs
      exact if_pos ⟨rfl, rfl, hname⟩
    rw [hstep]
    exact wf_eat jp rg cs hcs

theorem wfConv_append_block (jp : JsonLoads) (rg : Registry) (l : List Message)
    (content : String) (tcl : List ToolCall) (h : wfConv l) (htcl : tcl ≠ [])
    (hgood : tcl.all (goodCall jp) = true) :
    wfConv (l ++ (⟨"assistant", content, tcl, none⟩ :: tcl.map (convToolTurn jp rg))) := by
  unfold wfConv at h ⊢
  rw [List.foldl_append, h, List.foldl_cons]
  have hstep : wfStep (some []) ⟨"assistant", content, tcl, none⟩ = some tcl := by
    show (if ("assistant" : String) = "tool" then none
          else if ("assistant" : String) = "assistant" ∧ tcl ≠ [] then some tcl
          else some []) = some tcl
    rw [if_neg (by decide), if_pos ⟨rfl, htcl⟩]
  rw [hstep]
  exact wf_eat jp rg tcl hgood

theorem loop_wf (jp : JsonLoads) (rg : Registry) (resps : Nat → ModelResp)
    (hg : ∀ it, goodResp jp (resps it) = true) :
    ∀ (fuel k : Nat) (st : LoopState), wfConv st.conv →
      wfConv (sendLoopAux jp rg resps fuel k st).conv
  | 0, _, _, h => h
  | fuel + 1, k, st, h => by
    by_cases hlt : k < max_iterations
    · cases hfail : (resps (k + 1)).failure with
      | some e =>
        rw [sendLoopAux_fail jp rg resps fuel k st e hlt hfail]
        exact h
      | none =>
        by_cases htcl : tool_calls_list (consumeStream (resps (k + 1)).deltas).tcs = []
        · rw [sendLoopAux_done jp rg resps fuel k st hlt hfail htcl]
          show wfConv (if _ then _ else _)
          split
          · exact wfConv_append_turn st.conv _ h (wfStep_assistant_final _)
          · exact h
        · have hgood : (tool_calls_list (consumeStream (resps (k + 1)).deltas).tcs).all
              (goodCall jp) = true := hg (k + 1)
          have hparse : (tool_calls_list (consumeStream (resps (k + 1)).deltas).tcs).all
              (parseOk jp) = true := by
            rw [List.all_eq_true] at hgood ⊢
            intro tc htc
            have hh := hgood tc htc
            unfold goodCall at hh
            obtain ⟨-, h2⟩ : (!(tc.name == "")) = true ∧ parseOk jp tc = true := by simpa using hh
            exact h2
          rw [sendLoopAux_tools jp rg resps fuel k st hlt hfail htcl,
            execCalls_ok jp rg _ _ _ _ hparse]
          refine loop_wf jp rg resps hg fuel (k + 1) _ ?_
          show wfConv
            ((st.conv ++
               [⟨"assistant", (consumeStream (resps (k + 1)).deltas).content,
                 tool_calls_list (consumeStream (resps (k + 1)).deltas).tcs, none⟩]) ++
             (tool_calls_list (consumeStream (resps (k + 1)).deltas).tcs).map
               (convToolTurn jp rg))
          rw [List.append_assoc]
          exact wfConv_append_block jp rg st.conv _ _ h htcl hgood
    · rw [sendLoopAux_stop jp rg resps fuel k st hlt]
      exact h

/-- Claim C2 (amended): conversation well-formedness is an invariant at
every terminal state of the loop **provided** every tool call finalized
from any model response has a non-empty `toolName` and `argumentsJSON`
accepted by the JSON parser (`goodResp`): starting from a well-formed
history, at every terminal state each tool turn has a non-empty name and
sits in the block directly following the assistant turn listing it, one
tool turn per listed call in list order, and each assistant turn listing
calls has its complete block (`wfConv`).  The unconditional claim is
false (see the counterexample): invalid `argumentsJSON` makes the loop
abort between appending the assistant turn and appending its tool turns,
and a call with an empty accumulated name would produce a tool turn with
an empty name. -/
theorem c2_conversation_wf (jp : JsonLoads) (rg : Registry) (resps : Nat → ModelResp)
    (hist : List Message) (um : String) (hwf : wfConv hist)
    (hg : ∀ it, goodResp jp (resps it) = true) :
    wfConv (sendMessage jp rg resps hist um).conv := by
  have hr : wfConv (sendLoopAux jp rg resps max_iterations 0 (initLoopState hist um)).conv := by
    refine loop_wf jp rg resps hg max_iterations 0 _ ?_
    show wfConv (hist ++ [userTurn um])
    exact wfConv_append_turn hist _ hwf (wfStep_user um)
  unfold sendMessage
  split
  · exact hr
  · exact hr

/-- Witness for C2 (amended): a run with one well-formed tool call per
iteration ends with a well-formed conversation. -/
theorem c2_witness : wfConv (sendMessage jpEx rgEx respsTool [] "hi").conv :=
  c2_conversation_wf jpEx rgEx respsTool [] "hi" (by decide)
    (fun _ => (by decide : goodResp jpEx (respsTool 0) = true))

/-- Counterexample to claim C2 as stated: when the model requests a tool
call whose accumulated `argumentsJSON` is `"notjson"`, the terminal
conversation contains an assistant turn listing one tool call with no
matching tool turn appended — the well-formedness invariant fails at a
terminal state of the loop. -/
theorem c2_counterexample :
    ¬ wfConv (sendMessage jpEx rgEx respsBadJson [] "hi").conv ∧
    (sendMessage jpEx rgEx respsBadJson [] "hi").conv =
      [⟨"user", "hi", [], none⟩,
       ⟨"assistant", "", [⟨"tc1", "read_file", "notjson"⟩], none⟩] := by
  constructor
  · decide
  · decide

/-- Claim C1 (code bug): a tool-call request whose accumulated
`argumentsJSON` is not valid JSON is **not** converted into a tool-result
error string: `json.loads` at client.py line 184 runs inside the loop's
generic `try` (lines 96-241) and outside `execute_tool`'s own handler, so
the `JSONDecodeError` is caught by the `except` at line 241, which yields
a single loop-level error event (mislabelled "Error communicating with
API") and `break`s.  No tool turn is appended and the loop does not
continue: concretely, the run ends `errored` after iteration 1 with the
assistant turn's tool call left unanswered. -/
theorem c1_invalid_json_bug :
    (sendMessage jpEx rgEx respsBadJson [] "hi").status = .errored ∧
    (sendMessage jpEx rgEx respsBadJson [] "hi").iteration = 1 ∧
    (sendMessage jpEx rgEx respsBadJson [] "hi").events =
      [.error "Error communicating with API: Expecting value: line 1 column 1 (char 0)"] ∧
    ((sendMessage jpEx rgEx respsBadJson [] "hi").conv.filter
      (fun t => t.role == "tool")) = [] := by
  refine ⟨by decide, by decide, by decide, by decide⟩

/-- Claim C3 (code bug): the request message list is **not** the fixed
system turn followed by exactly the Conversation's turns when an
assistant turn contains two or more tool calls: the `messages.append` of
the assistant dict (client.py lines 214-219) sits inside the per-tool-call
loop, so the follow-up model call carries the assistant turn once per tool
call.  Concretely, with one response containing two tool calls, the second
model call's request list has roles `system, user, assistant, tool,
assistant, tool` — the assistant turn duplicated — while the Conversation
at that point holds it once (`user, assistant, tool, tool`). -/
theorem c3_request_duplication_bug :
    (sendMessage jpEx rgEx respsTwoCalls [] "hi").calls.map (fun c => c.map (fun m => m.role)) =
      [["system", "user"],
       ["system", "user", "assistant", "tool", "assistant", "tool"]] ∧
    (sendMessage jpEx rgEx respsTwoCalls [] "hi").conv.map (fun t => t.role) =
      ["user", "assistant", "tool", "tool", "assistant"] := by
  refine ⟨by decide, by decide⟩

/-- Claim C4 (amended): iterations per user message are capped at 10, and
the iteration-limit warning is emitted exactly when the final value of
`iteration` reached the cap — in particular, a model that always returns
at least one parseable tool call yields exactly 10 iterations, the
`exhausted` exit, and exactly one warning.  The original claim's "the
warning is not emitted when the loop reaches Completed" is false (see the
counterexample): the check at lines 246-247 runs after every exit, so a
run that completes on its 10th iteration also emits the warning. -/
theorem c4_iteration_cap (jp : JsonLoads) (rg : Registry) (resps : Nat → ModelResp)
    (hist : List Message) (um : String) :
    (sendMessage jp rg resps hist um).iteration ≤ max_iterations ∧
    ((sendMessage jp rg resps hist um).events).countP isWarning =
      (if (sendMessage jp rg resps hist um).iteration = max_iterations then 1 else 0) ∧
    ((∀ it, toolish jp (resps it) = true) →
      (sendMessage jp rg resps hist um).iteration = max_iterations ∧
      (sendMessage jp rg resps hist um).status = .exhausted ∧
      ((sendMessage jp rg resps hist um).events).countP isWarning = 1) := by
  have hle := loop_iteration_le jp rg resps max_iterations 0 (initLoopState hist um) (by decide)
  have hw : ((sendLoopAux jp rg resps max_iterations 0 (initLoopState hist um)).events).countP
      isWarning = 0 := by
    rw [loop_no_warning jp rg resps max_iterations 0 (initLoopState hist um)]
    rfl
  unfold sendMessage
  by_cases hge : max_iterations ≤
      (sendLoopAux jp rg resps max_iterations 0 (initLoopState hist um)).iteration
  · have hit : (sendLoopAux jp rg resps max_iterations 0 (initLoopState hist um)).iteration =
        max_iterations := le_antisymm hle hge
    rw [if_pos hge]
    refine ⟨hle, ?_, ?_⟩
    · show ((sendLoopAux jp rg resps max_iterations 0 (initLoopState hist um)).events ++
          [UIEvent.warning]).countP isWarning = _
      rw [List.countP_append, hw, if_pos hit]
      rfl
    · intro ht
      have h10 := loop_toolish jp rg resps ht max_iterations 0 (initLoopState hist um)
        (by decide) (by decide)
      refine ⟨hit, h10.2, ?_⟩
      show ((sendLoopAux jp rg resps max_iterations 0 (initLoopState hist um)).events ++
          [UIEvent.warning]).countP isWarning = _
      rw [List.countP_append, hw]
      rfl
  · have hne : (sendLoopAux jp rg resps max_iterations 0 (initLoopState hist um)).iteration ≠
        max_iterations := fun hh => hge (le_of_eq hh.symm)
    rw [if_neg hge]
    refine ⟨hle, ?_, ?_⟩
    · rw [hw, if_neg hne]
    · intro ht
      have h10 := loop_toolish jp rg resps ht max_iterations 0 (initLoopState hist um)
        (by decide) (by decide)
      exact absurd h10.1 hne

/-- Witness for C4 (amended): with a model that always returns one
parseable tool call, the run performs exactly 10 iterations, exits by the
`while` condition and emits exactly one warning. -/
theorem c4_witness :
    (sendMessage jpEx rgEx respsTool [] "go").iteration = max_iterations ∧
    (sendMessage jpEx rgEx respsTool [] "go").status = .exhausted ∧
    ((sendMessage jpEx rgEx respsTool [] "go").events).countP isWarning = 1 :=
  (c4_iteration_cap jpEx rgEx respsTool [] "go").2.2
    (fun _ => (by decide : toolish jpEx (respsTool 0) = true))

/-- Counterexample to claim C4 as stated: nine tool-call responses
followed by a plain answer make the loop reach Completed on its 10th
iteration — and the iteration-limit warning is emitted anyway. -/
theorem c4_counterexample :
    (sendMessage jpEx rgEx respsNineThenDone [] "go").status = .completed ∧
    (sendMessage jpEx rgEx respsNineThenDone [] "go").iteration = max_iterations ∧
    ((sendMessage jpEx rgEx respsNineThenDone [] "go").events).countP isWarning = 1 := by
  refine ⟨by decide, by decide, by decide⟩

/-- Claim C8: the Tool Executor is total — its return type is `String`
with no error channel, reflecting the catch-all `except` in the source —
and for every tool name and parsed-arguments dictionary: an unknown name
yields the deterministic not-found string, a capability result is returned
as-is, and a capability exception yields the deterministic error string
prefixed with the tool's name.  Both `ToolRegistry.execute_tool`
(codex_cli/tools.py) and the codex_simple.py variant are covered; their
error prefixes differ as shown. -/
theorem c8_executor_total (rg : Registry) (name : String) (args : Args) :
    (lookupTool name rg = none →
      execute_tool rg name args = "Error: Tool \x27" ++ name ++ "\x27 not found" ∧
      CodexSimple.execute_tool rg name args = "Error: Tool \x27" ++ name ++ "\x27 not found") ∧
    (∀ f : ToolImpl, lookupTool name rg = some f →
      (∀ r : String, f args = .ok r →
        execute_tool rg name args = r ∧ CodexSimple.execute_tool rg name args = r) ∧
      (∀ e : String, f args = .error e →
        execute_tool rg name args = "Error executing tool \x27" ++ name ++ "\x27: " ++ e ∧
        CodexSimple.execute_tool rg name args =
          "Error executing \x27" ++ name ++ "\x27: " ++ e)) := by
  refine ⟨?_, ?_⟩
  · intro h
    constructor
    · unfold execute_tool
      rw [h]
    · unfold CodexSimple.execute_tool
      rw [h]
  · intro f hf
    constructor
    · intro r hr
      constructor
      · simp [execute_tool, hf, hr]
      · simp [CodexSimple.execute_tool, hf, hr]
    · intro e he
      constructor
      · simp [execute_tool, hf, he]
      · simp [CodexSimple.execute_tool, hf, he]

/-- Witness for C8: the empty registry and an unknown tool name produce
the deterministic not-found string in both variants. -/
theorem c8_witness :
    execute_tool [] "missing_tool" [] = "Error: Tool \x27missing_tool\x27 not found" ∧
    CodexSimple.execute_tool [] "missing_tool" [] =
      "Error: Tool \x27missing_tool\x27 not found" :=
  (c8_executor_total [] "missing_tool" []).1 rfl

/-- Claim C9: when obtaining or consuming the model event stream of
iteration `k + 1` fails (after any prefix of delta events was consumed and
its streaming events yielded), the loop yields exactly one error event and
stops: the result is `errored` at iteration `k + 1`, exactly one model
call was issued in this step, and the Conversation is exactly the state's
conversation — every turn appended during iterations `1 .. k` and the
user turn are retained, with no rollback and no further model calls.
`st` ranges over the loop state reached after the first `k`
iterations. -/
theorem c9_transport_error (jp : JsonLoads) (rg : Registry) (resps : Nat → ModelResp)
    (fuel k : Nat) (st : LoopState) (e : String) (hk : k < max_iterations)
    (he : (resps (k + 1)).failure = some e) :
    (sendLoopAux jp rg resps (fuel + 1) k st).status = .errored ∧
    (sendLoopAux jp rg resps (fuel + 1) k st).iteration = k + 1 ∧
    (sendLoopAux jp rg resps (fuel + 1) k st).conv = st.conv ∧
    (sendLoopAux jp rg resps (fuel + 1) k st).calls = st.calls ++ [st.msgs] ∧
    (sendLoopAux jp rg resps (fuel + 1) k st).events =
      st.events ++ (consumeStream (resps (k + 1)).deltas).events ++
        [.error ("Error communicating with API: " ++ e)] ∧
    ((sendLoopAux jp rg resps (fuel + 1) k st).events).countP isError =
      st.events.countP isError + 1 := by
  rw [sendLoopAux_fail jp rg resps fuel k st e hk he]
  refine ⟨rfl, rfl, rfl, rfl, rfl, ?_⟩
  show (st.events ++ (consumeStream (resps (k + 1)).deltas).events ++
      [UIEvent.error ("Error communicating with API: " ++ e)]).countP isError = _
  rw [List.countP_append, List.countP_append, countP_isError_stream]
  simp [List.countP_cons, isError]

/-- Witness for C9: a transport that fails immediately on the first
iteration yields one error event, an empty conversation delta, and an
`errored` exit at iteration 1. -/
theorem c9_witness :
    (sendLoopAux jpEx rgEx respsFail 10 0 ⟨[], [], [], []⟩).status = .errored ∧
    (sendLoopAux jpEx rgEx respsFail 10 0 ⟨[], [], [], []⟩).iteration = 1 ∧
    (sendLoopAux jpEx rgEx respsFail 10 0 ⟨[], [], [], []⟩).conv = [] ∧
    ((sendLoopAux jpEx rgEx respsFail 10 0 ⟨[], [], [], []⟩).events).countP isError = 1 := by
  have h := c9_transport_error jpEx rgEx respsFail 9 0 ⟨[], [], [], []⟩ "Connection error."
    (by decide) rfl
  refine ⟨h.1, h.2.1, h.2.2.1, ?_⟩
  rw [h.2.2.2.2.2]
  decide
